import Mathlib

/-!
Verification of the Day 5 "Supply Stacks" simulator (src/src/day_05.rs).

The Rust code works on `Vec<Vec<char>>` (a list of stacks, each stack a
list of characters with the TOP at the END, matching `Vec::push`/`Vec::pop`).
Panics (`expect` on an empty pop, out-of-range indexing, and the usize
underflow of `from - 1` when `from = 0`) are modelled by `Option.none`.
-/

namespace Day05

/-- A stack of crates: bottom at index 0, top at the end (Rust `Vec<char>`). -/
abbrev Stack := List Char

/-- `struct Instruction { amount, from, to: usize }`. Indices are 1-based. -/
structure Instruction where
  amount : Nat
  «from» : Nat
  «to» : Nat
deriving Repr, DecidableEq

/-- One iteration of the loop body of `apply_as_crate_mover_9000`:
`stacks[from-1].pop().expect(..)` then `stacks[to-1].push(..)`.
`none` models the fatal paths: `from = 0` (usize underflow of `from - 1`),
index out of range, and popping an empty stack. -/
def moveOne (f t : Nat) (sts : List Stack) : Option (List Stack) :=
  if f = 0 then none else
  match sts[f - 1]? with
  | none => none
  | some src =>
    match src.getLast? with
    | none => none
    | some c =>
      let sts1 := sts.set (f - 1) src.dropLast
      if t = 0 then none else
      match sts1[t - 1]? with
      | none => none
      | some dst => some (sts1.set (t - 1) (dst ++ [c]))

/-- The `for _ in 0..self.amount` loop of `apply_as_crate_mover_9000`. -/
def mover9000Loop : Nat → Nat → Nat → List Stack → Option (List Stack)
  | 0, _, _, sts => some sts
  | n + 1, f, t, sts =>
    match moveOne f t sts with
    | none => none
    | some s1 => mover9000Loop n f t s1

/-- `Instruction::apply_as_crate_mover_9000`. -/
def apply_as_crate_mover_9000 (i : Instruction) (sts : List Stack) :
    Option (List Stack) :=
  mover9000Loop i.amount i.«from» i.«to» sts

/-- First loop of `apply_as_crate_mover_9001`: pop `amount` crates from the
`from` stack into the buffer (buffer top at the end, as in Rust). -/
def popLoop : Nat → Nat → List Stack → List Char →
    Option (List Stack × List Char)
  | 0, _, sts, buffer => some (sts, buffer)
  | n + 1, f, sts, buffer =>
    if f = 0 then none else
    match sts[f - 1]? with
    | none => none
    | some src =>
      match src.getLast? with
      | none => none
      | some c => popLoop n f (sts.set (f - 1) src.dropLast) (buffer ++ [c])

/-- Second loop of `apply_as_crate_mover_9001`: `for _ in 0..buffer.len()`
pop the buffer and push onto the `to` stack. -/
def pushBufferLoop : Nat → Nat → List Stack → List Char →
    Option (List Stack × List Char)
  | 0, _, sts, buffer => some (sts, buffer)
  | n + 1, t, sts, buffer =>
    match buffer.getLast? with
    | none => none
    | some c =>
      if t = 0 then none else
      match sts[t - 1]? with
      | none => none
      | some dst =>
        pushBufferLoop n t (sts.set (t - 1) (dst ++ [c])) buffer.dropLast

/-- `Instruction::apply_as_crate_mover_9001`. -/
def apply_as_crate_mover_9001 (i : Instruction) (sts : List Stack) :
    Option (List Stack) :=
  match popLoop i.amount i.«from» sts [] with
  | none => none
  | some (sts1, buffer) =>
    (pushBufferLoop buffer.length i.«to» sts1 buffer).map Prod.fst

/-- The instruction-application loop of `run`: apply each instruction in
order with the given engine, propagating a panic. -/
def applyAll (engine : Instruction → List Stack → Option (List Stack)) :
    List Instruction → List Stack → Option (List Stack)
  | [], sts => some sts
  | i :: rest, sts =>
    match engine i sts with
    | none => none
    | some s => applyAll engine rest s

/-- `stacks.iter_mut().filter_map(Vec::pop).collect::<String>()`:
the top character of every stack in stack order, empty stacks skipped. -/
def topCrates (sts : List Stack) : List Char :=
  sts.filterMap List.getLast?

/-- The canonical example's initial stacks, bottom-to-top. -/
def exampleStacks : List Stack := [['Z', 'N'], ['M', 'C', 'D'], ['P']]

/-- The canonical example's instruction list. -/
def exampleInstructions : List Instruction :=
  [⟨1, 2, 1⟩, ⟨3, 1, 3⟩, ⟨2, 2, 1⟩, ⟨1, 1, 2⟩]

/-- Match a literal prefix of the line, returning the rest
(the literal pieces of the regex `^move (\d+) from (\d+) to (\d+)$`). -/
def matchLiteral : List Char → List Char → Option (List Char)
  | [], rest => some rest
  | _ :: _, [] => none
  | p :: ps, c :: cs => if c = p then matchLiteral ps cs else none

/-- The anchored regex `^move (\d+) from (\d+) to (\d+)$` of
`Instruction::from_str`: on a match, the three captured digit runs;
otherwise `none` (the `ParseInstructionError::Regex` branch). Each
`(\d+)` is a maximal non-empty digit run — maximal matching is exact
here because each group is followed by a non-digit literal. -/
def regexCaptures (line : List Char) :
    Option (List Char × List Char × List Char) :=
  match matchLiteral "move ".toList line with
  | none => none
  | some r1 =>
    let a := r1.takeWhile Char.isDigit
    let r2 := r1.dropWhile Char.isDigit
    if a.isEmpty then none else
    match matchLiteral " from ".toList r2 with
    | none => none
    | some r3 =>
      let b := r3.takeWhile Char.isDigit
      let r4 := r3.dropWhile Char.isDigit
      if b.isEmpty then none else
      match matchLiteral " to ".toList r4 with
      | none => none
      | some r5 =>
        let c := r5.takeWhile Char.isDigit
        let r6 := r5.dropWhile Char.isDigit
        if c.isEmpty then none else
        if r6.isEmpty then some (a, b, c) else none

/-- Value of a digit run, most significant first. -/
def digitsVal : List Char → Nat → Nat
  | [], acc => acc
  | c :: cs, acc => digitsVal cs (acc * 10 + (c.toNat - '0'.toNat))

/-- `str::parse::<usize>` on a captured group: fails on an empty or
non-digit string and on 64-bit overflow
(the `ParseInstructionError::ParseInt` branch). -/
def parse_usize (cs : List Char) : Option Nat :=
  if cs.isEmpty then none
  else if cs.all Char.isDigit then
    if digitsVal cs 0 < 2 ^ 64 then some (digitsVal cs 0) else none
  else none

/-- `Instruction::from_str`: regex match, then the three integer parses
in `Instruction::parse_str`; any failure yields an error, modelled as
`none` (both error variants are dropped alike by the caller). -/
def from_str (line : List Char) : Option Instruction :=
  match regexCaptures line with
  | none => none
  | some (a, b, c) =>
    match parse_usize a, parse_usize b, parse_usize c with
    | some x, some y, some z => some ⟨x, y, z⟩
    | _, _, _ => none

/-- The instruction-section parse in `load_input`:
`.lines().map(Instruction::from_str).filter_map(Result::ok)`. -/
def parseInstructions (lines : List (List Char)) : List Instruction :=
  lines.filterMap from_str

/-- Characters the `load_stacks` scan keeps: everything except a space
and the two bracket characters. -/
def crateChar (ch : Char) : Bool := !(ch == ' ' || ch == '[' || ch == ']')

/-- One diagram line's `(position, char)` entries:
`line.chars().enumerate().filter_map(..)`. -/
def lineEntries (line : List Char) : List (Nat × Char) :=
  line.enum.filter fun p => crateChar p.2

/-- The `vec.resize(index + 1, Vec::new())`, `get_mut(index)`,
`insert(0, c)` step of the `load_stacks` fold: pad with empty stacks up
to `index`, then cons the character onto the front of stack `index`. -/
def stackInsert : List Stack → Nat → Char → List Stack
  | [], 0, ch => [[ch]]
  | [], n + 1, ch => [] :: stackInsert [] n ch
  | s :: rest, 0, ch => (ch :: s) :: rest
  | s :: rest, n + 1, ch => s :: stackInsert rest n ch

/-- The fold of `load_stacks` over all entries of all lines; the stack
index is `position / 4`. -/
def loadStacksFold (lines : List (List Char)) : List Stack :=
  (lines.flatMap lineEntries).foldl
    (fun vec p => stackInsert vec (p.1 / 4) p.2) []

/-- The `stack.remove(0)` pass that discards the index-indicator
characters; `remove(0)` panics (`none`) on an empty stack. -/
def removeLabels : List Stack → Option (List Stack)
  | [] => some []
  | [] :: _ => none
  | (_ :: s) :: rest => (removeLabels rest).map fun v => s :: v

/-- `load_stacks`, on the diagram text already split into lines. -/
def load_stacks (lines : List (List Char)) : Option (List Stack) :=
  removeLabels (loadStacksFold lines)

/-- One rendered diagram cell of width 4: `[X] ` when occupied, four
spaces when blank. -/
def renderCell : Option Char → List Char
  | some ch => ['[', ch, ']', ' ']
  | none => [' ', ' ', ' ', ' ']

/-- A well-formed crate row: cells rendered at offsets 0, 4, 8, …, so
cell `i`'s character sits at horizontal offset `1 + 4*i`. -/
def renderRow (cells : List (Option Char)) : List Char :=
  cells.flatMap renderCell

/-- The trailing stack-number label row, label `i` at offset `1 + 4*i`. -/
def renderLabels (labels : List Char) : List Char :=
  labels.flatMap fun ch => [' ', ch, ' ', ' ']

/-- Specification of the entries of a rendered row that starts at text
offset `k`: occupied cell `i` yields `(k + 4*i + 1, its character)`. -/
def cellsEntries : Nat → List (Option Char) → List (Nat × Char)
  | _, [] => []
  | k, none :: rest => cellsEntries (k + 4) rest
  | k, some ch :: rest => (k + 1, ch) :: cellsEntries (k + 4) rest

/-- `lineEntries` with the enumeration starting at position `k`. -/
def lineEntriesFrom (k : Nat) (line : List Char) : List (Nat × Char) :=
  (line.enumFrom k).filter fun p => crateChar p.2

/-- Setting an index of a list to the value it already holds is the
identity. -/
theorem set_of_getElem? {α : Type} (l : List α) (n : Nat) (a : α)
    (h : l[n]? = some a) : l.set n a = l := by
  induction l generalizing n with
  | nil => simp at h
  | cons x xs ih =>
    cases n with
    | zero => simp_all
    | succ m =>
      simp only [List.getElem?_cons_succ] at h
      simp [List.set_cons_succ, ih m h]

/-- Characterisation of one `apply_as_crate_mover_9000` loop iteration on a
valid state: the top of the `from` stack moves to the top of the `to`
stack. -/
theorem moveOne_eq (f t : Nat) (sts : List Stack) (src dst : Stack)
    (c : Char) (hf0 : f ≠ 0) (ht0 : t ≠ 0) (hft : f ≠ t)
    (hsrc : sts[f - 1]? = some (src ++ [c]))
    (hdst : sts[t - 1]? = some dst) :
    moveOne f t sts = some ((sts.set (f - 1) src).set (t - 1) (dst ++ [c])) := by
  have hne : f - 1 ≠ t - 1 := by omega
  unfold moveOne
  rw [if_neg hf0, hsrc]
  simp only [List.getLast?_concat, List.dropLast_concat]
  rw [if_neg ht0, List.getElem?_set_ne hne, hdst]

/-- Effect of the full 9000 loop when the source stack holds at least
`a` characters and the two indices are valid and distinct: the top `a`
characters leave the source and arrive on the destination reversed. -/
theorem mover9000Loop_eq (a : Nat) (f t : Nat) :
    ∀ (sts : List Stack) (src dst : Stack),
    f ≠ 0 → t ≠ 0 → f ≠ t →
    sts[f - 1]? = some src → sts[t - 1]? = some dst →
    a ≤ src.length →
    mover9000Loop a f t sts =
      some ((sts.set (f - 1) (src.take (src.length - a))).set (t - 1)
        (dst ++ (src.drop (src.length - a)).reverse)) := by
  induction a with
  | zero =>
    intro sts src dst hf0 ht0 hft hsrc hdst _
    simp only [Nat.sub_zero, List.take_length, List.drop_length,
      List.reverse_nil, List.append_nil]
    rw [set_of_getElem? sts _ _ hsrc, set_of_getElem? sts _ _ hdst]
    rfl
  | succ a ih =>
    intro sts src dst hf0 ht0 hft hsrc hdst ha
    have hne : f - 1 ≠ t - 1 := by omega
    have hsrcne : src ≠ [] := by
      intro h; subst h; simp at ha
    have hflt : f - 1 < sts.length :=
      (List.getElem?_eq_some_iff.mp hsrc).1
    have htlt : t - 1 < sts.length :=
      (List.getElem?_eq_some_iff.mp hdst).1
    set sr := src.dropLast with hsr
    set c := src.getLast hsrcne with hc
    have hsplit : src = sr ++ [c] := (List.dropLast_append_getLast hsrcne).symm
    have hlen : sr.length = src.length - 1 := by
      rw [hsr, List.length_dropLast]
    have hstep := moveOne_eq f t sts sr dst c hf0 ht0 hft
      (by rw [← hsplit]; exact hsrc) hdst
    show (match moveOne f t sts with
      | none => none
      | some s1 => mover9000Loop a f t s1) = _
    rw [hstep]
    set s1 := (sts.set (f - 1) sr).set (t - 1) (dst ++ [c]) with hs1
    have hs1src : s1[f - 1]? = some sr := by
      rw [hs1, List.getElem?_set_ne hne.symm,
        List.getElem?_set_self hflt]
    have hs1dst : s1[t - 1]? = some (dst ++ [c]) := by
      rw [hs1, List.getElem?_set_self (by simpa using htlt)]
    have has : a ≤ sr.length := by omega
    show mover9000Loop a f t s1 = _
    rw [ih s1 sr (dst ++ [c]) hf0 ht0 hft hs1src hs1dst has]
    congr 1
    have hk : sr.length - a = src.length - (a + 1) := by omega
    have htake : sr.take (sr.length - a) = src.take (src.length - (a + 1)) := by
      rw [hk, hsr, List.dropLast_eq_take, List.take_take]
      congr 1
      omega
    have hble : src.length - (a + 1) ≤ sr.length := by omega
    have hdrop : src.drop (src.length - (a + 1)) =
        sr.drop (sr.length - a) ++ [c] := by
      have h2 : src.drop (src.length - (a + 1)) =
          (sr ++ [c]).drop (src.length - (a + 1)) := by rw [← hsplit]
      rw [h2, List.drop_append_of_le_length hble, hk]
    rw [htake, hdrop, List.reverse_append]
    have hsets : s1.set (f - 1) (src.take (src.length - (a + 1))) =
        (sts.set (f - 1) (src.take (src.length - (a + 1)))).set (t - 1)
          (dst ++ [c]) := by
      rw [hs1, List.set_comm _ _ _ hne, List.set_set]
      exact List.set_comm _ _ _ hne.symm
    rw [hsets, List.set_set]
    simp

/-- Effect of the first 9001 loop when the source stack holds at least `a`
characters: the top `a` characters leave the source and enter the buffer
in pop order (reversed). -/
theorem popLoop_eq (a : Nat) (f : Nat) :
    ∀ (sts : List Stack) (src : Stack) (buf : List Char),
    f ≠ 0 → sts[f - 1]? = some src → a ≤ src.length →
    popLoop a f sts buf =
      some (sts.set (f - 1) (src.take (src.length - a)),
        buf ++ (src.drop (src.length - a)).reverse) := by
  induction a with
  | zero =>
    intro sts src buf hf0 hsrc _
    simp only [Nat.sub_zero, List.take_length, List.drop_length,
      List.reverse_nil, List.append_nil]
    rw [set_of_getElem? sts _ _ hsrc]
    rfl
  | succ a ih =>
    intro sts src buf hf0 hsrc ha
    have hsrcne : src ≠ [] := by
      intro h; subst h; simp at ha
    have hflt : f - 1 < sts.length :=
      (List.getElem?_eq_some_iff.mp hsrc).1
    obtain ⟨sr, c, hsplit⟩ : ∃ sr ch, src = sr ++ [ch] :=
      ⟨src.dropLast, src.getLast hsrcne,
        (List.dropLast_append_getLast hsrcne).symm⟩
    subst hsplit
    have ha' : a ≤ sr.length := by
      simp only [List.length_append, List.length_cons, List.length_nil] at ha
      omega
    show (if f = 0 then none else
      match sts[f - 1]? with
      | none => none
      | some src =>
        match src.getLast? with
        | none => none
        | some c => popLoop a f (sts.set (f - 1) src.dropLast) (buf ++ [c])) = _
    rw [if_neg hf0, hsrc]
    simp only [List.getLast?_concat, List.dropLast_concat]
    have hset : (sts.set (f - 1) sr)[f - 1]? = some sr :=
      List.getElem?_set_self hflt
    rw [ih (sts.set (f - 1) sr) sr (buf ++ [c]) hf0 hset ha']
    rw [List.set_set]
    simp only [List.length_append, List.length_cons, List.length_nil]
    have hk : sr.length + (0 + 1) - (a + 1) = sr.length - a := by omega
    rw [hk, List.take_append_of_le_length (by omega),
      List.drop_append_of_le_length (by omega), List.reverse_append]
    simp

/-- Effect of the second 9001 loop: `n ≤ buffer.length` characters are
popped off the buffer and pushed, reversing the buffer block onto the
destination stack. -/
theorem pushBufferLoop_eq (n : Nat) (t : Nat) :
    ∀ (sts : List Stack) (dst : Stack) (buf : List Char),
    t ≠ 0 → sts[t - 1]? = some dst → n ≤ buf.length →
    pushBufferLoop n t sts buf =
      some (sts.set (t - 1) (dst ++ (buf.drop (buf.length - n)).reverse),
        buf.take (buf.length - n)) := by
  induction n with
  | zero =>
    intro sts dst buf ht0 hdst _
    simp only [Nat.sub_zero, List.take_length, List.drop_length,
      List.reverse_nil, List.append_nil]
    rw [set_of_getElem? sts _ _ hdst]
    rfl
  | succ n ih =>
    intro sts dst buf ht0 hdst hn
    have hbufne : buf ≠ [] := by
      intro h; subst h; simp at hn
    have htlt : t - 1 < sts.length :=
      (List.getElem?_eq_some_iff.mp hdst).1
    obtain ⟨br, c, hsplit⟩ : ∃ br ch, buf = br ++ [ch] :=
      ⟨buf.dropLast, buf.getLast hbufne,
        (List.dropLast_append_getLast hbufne).symm⟩
    subst hsplit
    have hn' : n ≤ br.length := by
      simp only [List.length_append, List.length_cons, List.length_nil] at hn
      omega
    show (match (br ++ [c]).getLast? with
      | none => none
      | some ch =>
        if t = 0 then none else
        match sts[t - 1]? with
        | none => none
        | some dst =>
          pushBufferLoop n t (sts.set (t - 1) (dst ++ [ch]))
            (br ++ [c]).dropLast) = _
    simp only [List.getLast?_concat, List.dropLast_concat]
    rw [if_neg ht0, hdst]
    have hset : (sts.set (t - 1) (dst ++ [c]))[t - 1]? = some (dst ++ [c]) :=
      List.getElem?_set_self htlt
    show pushBufferLoop n t (sts.set (t - 1) (dst ++ [c])) br = _
    rw [ih (sts.set (t - 1) (dst ++ [c])) (dst ++ [c]) br ht0 hset hn']
    rw [List.set_set]
    simp only [List.length_append, List.length_cons, List.length_nil]
    have hk : br.length + (0 + 1) - (n + 1) = br.length - n := by omega
    rw [hk, List.take_append_of_le_length (by omega),
      List.drop_append_of_le_length (by omega), List.reverse_append]
    simp

/-- The net effect of `apply_as_crate_mover_9000` on a valid instruction
with distinct indices: the top `a` of the source land on the destination
reversed. -/
theorem apply9000_eq (a f t : Nat) (sts : List Stack) (src dst : Stack)
    (hf0 : f ≠ 0) (ht0 : t ≠ 0) (hft : f ≠ t)
    (hsrc : sts[f - 1]? = some src) (hdst : sts[t - 1]? = some dst)
    (ha : a ≤ src.length) :
    apply_as_crate_mover_9000 ⟨a, f, t⟩ sts =
      some ((sts.set (f - 1) (src.take (src.length - a))).set (t - 1)
        (dst ++ (src.drop (src.length - a)).reverse)) :=
  mover9000Loop_eq a f t sts src dst hf0 ht0 hft hsrc hdst ha

/-- The net effect of `apply_as_crate_mover_9001` on a valid instruction
with distinct indices: the top `a` of the source land on the destination
with their relative order preserved. -/
theorem apply9001_eq (a f t : Nat) (sts : List Stack) (src dst : Stack)
    (hf0 : f ≠ 0) (ht0 : t ≠ 0) (hft : f ≠ t)
    (hsrc : sts[f - 1]? = some src) (hdst : sts[t - 1]? = some dst)
    (ha : a ≤ src.length) :
    apply_as_crate_mover_9001 ⟨a, f, t⟩ sts =
      some ((sts.set (f - 1) (src.take (src.length - a))).set (t - 1)
        (dst ++ src.drop (src.length - a))) := by
  have hne : f - 1 ≠ t - 1 := by omega
  have htlt : t - 1 < sts.length :=
    (List.getElem?_eq_some_iff.mp hdst).1
  show (match popLoop a f sts [] with
    | none => none
    | some (sts1, buffer) =>
      (pushBufferLoop buffer.length t sts1 buffer).map Prod.fst) = _
  rw [popLoop_eq a f sts src [] hf0 hsrc ha]
  set sts1 := sts.set (f - 1) (src.take (src.length - a)) with hsts1
  set buffer := ([] : List Char) ++ (src.drop (src.length - a)).reverse
    with hbuffer
  show (pushBufferLoop buffer.length t sts1 buffer).map Prod.fst = _
  have hdst1 : sts1[t - 1]? = some dst := by
    rw [hsts1, List.getElem?_set_ne hne, hdst]
  rw [pushBufferLoop_eq buffer.length t sts1 dst buffer ht0 hdst1 le_rfl]
  rw [Nat.sub_self, List.drop_zero]
  have hrev : buffer.reverse = src.drop (src.length - a) := by
    rw [hbuffer]
    simp
  rw [hrev]
  rfl

/-- C1: on the canonical example, the single-transfer engine yields top
crates "CMZ" and the bulk-ordered engine yields "MCD". -/
theorem canonical_example_tops :
    (applyAll apply_as_crate_mover_9000 exampleInstructions
        exampleStacks).map topCrates = some "CMZ".toList ∧
    (applyAll apply_as_crate_mover_9001 exampleInstructions
        exampleStacks).map topCrates = some "MCD".toList := by
  constructor <;> rfl

/-- C9: an instruction with `amount = 0` is a no-op for both engines,
whatever its indices: the collection is returned unchanged, no panic. -/
theorem amount_zero_noop (f t : Nat) (sts : List Stack) :
    apply_as_crate_mover_9000 ⟨0, f, t⟩ sts = some sts ∧
    apply_as_crate_mover_9001 ⟨0, f, t⟩ sts = some sts := by
  constructor <;> rfl

/-- C2 (amended: the source and destination indices must be distinct):
on a valid instruction the single-transfer engine appends the top `a`
characters of the source reversed to the destination, the bulk-ordered
engine appends the same block order-preserved, and in both cases the
source loses exactly its top `a` characters. -/
theorem mover_effects (a f t : Nat) (sts : List Stack) (src dst : Stack)
    (hf0 : f ≠ 0) (ht0 : t ≠ 0) (hft : f ≠ t)
    (hsrc : sts[f - 1]? = some src) (hdst : sts[t - 1]? = some dst)
    (ha : a ≤ src.length) :
    apply_as_crate_mover_9000 ⟨a, f, t⟩ sts =
      some ((sts.set (f - 1) (src.take (src.length - a))).set (t - 1)
        (dst ++ (src.drop (src.length - a)).reverse)) ∧
    apply_as_crate_mover_9001 ⟨a, f, t⟩ sts =
      some ((sts.set (f - 1) (src.take (src.length - a))).set (t - 1)
        (dst ++ src.drop (src.length - a))) :=
  ⟨apply9000_eq a f t sts src dst hf0 ht0 hft hsrc hdst ha,
   apply9001_eq a f t sts src dst hf0 ht0 hft hsrc hdst ha⟩

/-- Witness for `mover_effects` at a concrete valid input. -/
theorem mover_effects_witness :
    2 ≤ (['a', 'b', 'x'] : Stack).length ∧
    (apply_as_crate_mover_9000 ⟨2, 1, 2⟩ [['a', 'b', 'x'], ['q']] =
      some ((([['a', 'b', 'x'], ['q']] : List Stack).set 0
          (['a', 'b', 'x'].take 1)).set 1
        (['q'] ++ (['a', 'b', 'x'].drop 1).reverse)) ∧
    apply_as_crate_mover_9001 ⟨2, 1, 2⟩ [['a', 'b', 'x'], ['q']] =
      some ((([['a', 'b', 'x'], ['q']] : List Stack).set 0
          (['a', 'b', 'x'].take 1)).set 1
        (['q'] ++ ['a', 'b', 'x'].drop 1))) :=
  ⟨by decide,
   mover_effects 2 1 2 [['a', 'b', 'x'], ['q']] ['a', 'b', 'x'] ['q']
    (by decide) (by decide) (by decide) (by decide) (by decide) (by decide)⟩

/-- C2 counterexample: with source index = destination index (both
in range, source long enough), the single-transfer engine does NOT
realise the claimed effect — it returns the collection unchanged. -/
theorem mover_effects_same_index_counterexample :
    apply_as_crate_mover_9000 ⟨2, 1, 1⟩ [['a', 'b']] = some [['a', 'b']] ∧
    ¬ (apply_as_crate_mover_9000 ⟨2, 1, 1⟩ [['a', 'b']] =
      some ((([['a', 'b']] : List Stack).set 0 (['a', 'b'].take 0)).set 0
        (['a', 'b'] ++ (['a', 'b'].drop 0).reverse))) := by
  constructor <;> decide

/-- `mover9000Loop` on one iteration, as an `Option.bind`. -/
theorem mover9000Loop_succ (n f t : Nat) (sts : List Stack) :
    mover9000Loop (n + 1) f t sts =
      (moveOne f t sts).bind (mover9000Loop n f t) := by
  show (match moveOne f t sts with
    | none => none
    | some s1 => mover9000Loop n f t s1) = _
  cases moveOne f t sts <;> rfl

/-- `applyAll` on a cons, as an `Option.bind`. -/
theorem applyAll_cons (engine : Instruction → List Stack → Option (List Stack))
    (i : Instruction) (rest : List Instruction) (sts : List Stack) :
    applyAll engine (i :: rest) sts =
      (engine i sts).bind (applyAll engine rest) := by
  show (match engine i sts with
    | none => none
    | some s => applyAll engine rest s) = _
  cases engine i sts <;> rfl

/-- A 9000 instruction of amount 1 is exactly one `moveOne` step. -/
theorem apply9000_one (f t : Nat) (sts : List Stack) :
    apply_as_crate_mover_9000 ⟨1, f, t⟩ sts = moveOne f t sts := by
  show mover9000Loop 1 f t sts = moveOne f t sts
  rw [mover9000Loop_succ]
  cases moveOne f t sts <;> rfl

/-- The 9000 loop of amount `n` equals `n` consecutive amount-1
instructions, unconditionally. -/
theorem mover9000Loop_eq_replicate (n f t : Nat) :
    ∀ sts, mover9000Loop n f t sts =
      applyAll apply_as_crate_mover_9000 (List.replicate n ⟨1, f, t⟩) sts := by
  induction n with
  | zero => intro sts; rfl
  | succ n ih =>
    intro sts
    rw [mover9000Loop_succ, List.replicate_succ, applyAll_cons, apply9000_one]
    cases moveOne f t sts with
    | none => rfl
    | some s1 => exact ih s1

/-- C4: a single 9000 instruction of amount `n` on a valid state produces
the same collection as `n` consecutive 9000 instructions of amount 1 with
the same indices. -/
theorem mover9000_amount_eq_singles (n f t : Nat) (sts : List Stack)
    (src : Stack) (hf0 : f ≠ 0) (ht0 : t ≠ 0)
    (hf : f ≤ sts.length) (ht : t ≤ sts.length)
    (hsrc : sts[f - 1]? = some src) (ha : n ≤ src.length) :
    apply_as_crate_mover_9000 ⟨n, f, t⟩ sts =
      applyAll apply_as_crate_mover_9000 (List.replicate n ⟨1, f, t⟩) sts :=
  mover9000Loop_eq_replicate n f t sts

/-- Witness for `mover9000_amount_eq_singles` at a concrete valid input. -/
theorem mover9000_amount_eq_singles_witness :
    2 ≤ (['a', 'b'] : Stack).length ∧
    apply_as_crate_mover_9000 ⟨2, 1, 2⟩ [['a', 'b'], []] =
      applyAll apply_as_crate_mover_9000 (List.replicate 2 ⟨1, 1, 2⟩)
        [['a', 'b'], []] :=
  ⟨by decide,
   mover9000_amount_eq_singles 2 1 2 [['a', 'b'], []] ['a', 'b']
    (by decide) (by decide) (by decide) (by decide) (by decide) (by decide)⟩

/-- C5 (amended: the single-transfer engine ALSO restores the original):
moving `a` crates from `f` to `t` and then `a` crates from `t` back to
`f` restores the original collection under both engines — the 9000
engine reverses the block twice. -/
theorem double_move_restores (a f t : Nat) (sts : List Stack) (src dst : Stack)
    (hf0 : f ≠ 0) (ht0 : t ≠ 0) (hft : f ≠ t)
    (hsrc : sts[f - 1]? = some src) (hdst : sts[t - 1]? = some dst)
    (ha : a ≤ src.length) :
    (apply_as_crate_mover_9001 ⟨a, f, t⟩ sts).bind
      (apply_as_crate_mover_9001 ⟨a, t, f⟩) = some sts ∧
    (apply_as_crate_mover_9000 ⟨a, f, t⟩ sts).bind
      (apply_as_crate_mover_9000 ⟨a, t, f⟩) = some sts := by
  have hne : f - 1 ≠ t - 1 := by omega
  have hflt : f - 1 < sts.length := (List.getElem?_eq_some_iff.mp hsrc).1
  have htlt : t - 1 < sts.length := (List.getElem?_eq_some_iff.mp hdst).1
  constructor
  · rw [apply9001_eq a f t sts src dst hf0 ht0 hft hsrc hdst ha]
    set X := src.drop (src.length - a) with hX
    have hXlen : X.length = a := by
      rw [hX, List.length_drop]; omega
    set A := src.take (src.length - a) with hA
    set s1 := (sts.set (f - 1) A).set (t - 1) (dst ++ X) with hs1
    have h1 : s1[t - 1]? = some (dst ++ X) := by
      rw [hs1]
      exact List.getElem?_set_self (by simpa using htlt)
    have h2 : s1[f - 1]? = some A := by
      rw [hs1, List.getElem?_set_ne hne.symm, List.getElem?_set_self hflt]
    have ha2 : a ≤ (dst ++ X).length := by
      rw [List.length_append]; omega
    show apply_as_crate_mover_9001 ⟨a, t, f⟩ s1 = some sts
    rw [apply9001_eq a t f s1 (dst ++ X) A ht0 hf0 (Ne.symm hft) h1 h2 ha2]
    have hlen2 : (dst ++ X).length - a = dst.length := by
      rw [List.length_append]; omega
    rw [hlen2, List.take_append_of_le_length le_rfl, List.take_length]
    have hdrop2 : (dst ++ X).drop dst.length = X := List.drop_left dst X
    rw [hdrop2]
    have hAX : A ++ X = src := by
      rw [hA, hX]; exact List.take_append_drop _ src
    rw [hAX, hs1, List.set_set, List.set_comm _ _ _ hne, List.set_set,
      List.set_comm _ _ _ hne.symm, set_of_getElem? sts _ _ hsrc,
      set_of_getElem? sts _ _ hdst]
  · rw [apply9000_eq a f t sts src dst hf0 ht0 hft hsrc hdst ha]
    set X := (src.drop (src.length - a)).reverse with hX
    have hXlen : X.length = a := by
      rw [hX, List.length_reverse, List.length_drop]; omega
    set A := src.take (src.length - a) with hA
    set s1 := (sts.set (f - 1) A).set (t - 1) (dst ++ X) with hs1
    have h1 : s1[t - 1]? = some (dst ++ X) := by
      rw [hs1]
      exact List.getElem?_set_self (by simpa using htlt)
    have h2 : s1[f - 1]? = some A := by
      rw [hs1, List.getElem?_set_ne hne.symm, List.getElem?_set_self hflt]
    have ha2 : a ≤ (dst ++ X).length := by
      rw [List.length_append]; omega
    show apply_as_crate_mover_9000 ⟨a, t, f⟩ s1 = some sts
    rw [apply9000_eq a t f s1 (dst ++ X) A ht0 hf0 (Ne.symm hft) h1 h2 ha2]
    have hlen2 : (dst ++ X).length - a = dst.length := by
      rw [List.length_append]; omega
    rw [hlen2, List.take_append_of_le_length le_rfl, List.take_length]
    have hdrop2 : (dst ++ X).drop dst.length = X := List.drop_left dst X
    rw [hdrop2, hX, List.reverse_reverse]
    have hAX : A ++ src.drop (src.length - a) = src := by
      rw [hA]; exact List.take_append_drop _ src
    rw [hAX, hs1, List.set_set, List.set_comm _ _ _ hne, List.set_set,
      List.set_comm _ _ _ hne.symm, set_of_getElem? sts _ _ hsrc,
      set_of_getElem? sts _ _ hdst]

/-- Witness for `double_move_restores` at a concrete valid input. -/
theorem double_move_restores_witness :
    3 ≤ (['a', 'b', 'c'] : Stack).length ∧
    ((apply_as_crate_mover_9001 ⟨3, 1, 2⟩ [['a', 'b', 'c'], ['q']]).bind
      (apply_as_crate_mover_9001 ⟨3, 2, 1⟩) =
        some [['a', 'b', 'c'], ['q']] ∧
    (apply_as_crate_mover_9000 ⟨3, 1, 2⟩ [['a', 'b', 'c'], ['q']]).bind
      (apply_as_crate_mover_9000 ⟨3, 2, 1⟩) =
        some [['a', 'b', 'c'], ['q']]) :=
  ⟨by decide,
   double_move_restores 3 1 2 [['a', 'b', 'c'], ['q']] ['a', 'b', 'c'] ['q']
    (by decide) (by decide) (by decide) (by decide) (by decide) (by decide)⟩

/-- C5 counterexample: contrary to the claim, two opposite
single-transfer (9000) moves of size 2 DO restore the original
collection — the block is reversed twice. -/
theorem mover9000_double_move_counterexample :
    (apply_as_crate_mover_9000 ⟨2, 1, 2⟩ [['a', 'b'], []]).bind
      (apply_as_crate_mover_9000 ⟨2, 2, 1⟩) = some [['a', 'b'], []] := by
  decide

/-- If the source stack holds fewer than `a` characters, the first 9001
loop hits the empty-pop panic. -/
theorem popLoop_none (a : Nat) (f : Nat) :
    ∀ (sts : List Stack) (src : Stack) (buf : List Char),
    f ≠ 0 → sts[f - 1]? = some src → src.length < a →
    popLoop a f sts buf = none := by
  induction a with
  | zero => intro sts src buf _ _ hlt; omega
  | succ a ih =>
    intro sts src buf hf0 hsrc hlt
    have hflt : f - 1 < sts.length := (List.getElem?_eq_some_iff.mp hsrc).1
    show (if f = 0 then none else
      match sts[f - 1]? with
      | none => none
      | some src =>
        match src.getLast? with
        | none => none
        | some c => popLoop a f (sts.set (f - 1) src.dropLast) (buf ++ [c])) = _
    rw [if_neg hf0, hsrc]
    by_cases hO : src = []
    · subst hO
      simp
    · obtain ⟨sr, c, hsplit⟩ : ∃ sr ch, src = sr ++ [ch] :=
        ⟨src.dropLast, src.getLast hO, (List.dropLast_append_getLast hO).symm⟩
      subst hsplit
      simp only [List.getLast?_concat, List.dropLast_concat]
      have hlt' : sr.length < a := by
        simp only [List.length_append, List.length_cons, List.length_nil] at hlt
        omega
      exact ih (sts.set (f - 1) sr) sr (buf ++ [c]) hf0
        (List.getElem?_set_self hflt) hlt'

/-- If the source stack holds fewer than `a` characters and the two
indices are distinct, the 9000 loop hits the empty-pop panic. -/
theorem mover9000Loop_none (a : Nat) (f t : Nat) :
    ∀ (sts : List Stack) (src : Stack),
    f ≠ 0 → f ≠ t → sts[f - 1]? = some src → src.length < a →
    mover9000Loop a f t sts = none := by
  induction a with
  | zero => intro sts src _ _ _ hlt; omega
  | succ a ih =>
    intro sts src hf0 hft hsrc hlt
    have hflt : f - 1 < sts.length := (List.getElem?_eq_some_iff.mp hsrc).1
    show (match moveOne f t sts with
      | none => none
      | some s1 => mover9000Loop a f t s1) = _
    by_cases hO : src = []
    · subst hO
      have hm : moveOne f t sts = none := by
        unfold moveOne
        rw [if_neg hf0, hsrc]
        rfl
      rw [hm]
    · obtain ⟨sr, c, hsplit⟩ : ∃ sr ch, src = sr ++ [ch] :=
        ⟨src.dropLast, src.getLast hO, (List.dropLast_append_getLast hO).symm⟩
      subst hsplit
      have hlt' : sr.length < a := by
        simp only [List.length_append, List.length_cons, List.length_nil] at hlt
        omega
      by_cases ht0 : t = 0
      · have hm : moveOne f t sts = none := by
          unfold moveOne
          rw [if_neg hf0, hsrc]
          simp only [List.getLast?_concat, List.dropLast_concat]
          rw [if_pos ht0]
        rw [hm]
      · cases hd : (sts.set (f - 1) sr)[t - 1]? with
        | none =>
          have hm : moveOne f t sts = none := by
            unfold moveOne
            rw [if_neg hf0, hsrc]
            simp only [List.getLast?_concat, List.dropLast_concat]
            rw [if_neg ht0, hd]
          rw [hm]
        | some dst =>
          have hm : moveOne f t sts =
              some ((sts.set (f - 1) sr).set (t - 1) (dst ++ [c])) := by
            unfold moveOne
            rw [if_neg hf0, hsrc]
            simp only [List.getLast?_concat, List.dropLast_concat]
            rw [if_neg ht0, hd]
          rw [hm]
          have hne : f - 1 ≠ t - 1 := by omega
          have hsrc1 : ((sts.set (f - 1) sr).set (t - 1) (dst ++ [c]))[f - 1]? =
              some sr := by
            rw [List.getElem?_set_ne hne.symm, List.getElem?_set_self hflt]
          exact ih _ sr hf0 hft hsrc1 hlt'

/-- `moveOne` panics whenever either index is 0 or out of range. -/
theorem moveOne_none_of_bad (f t : Nat) (sts : List Stack)
    (hbad : f = 0 ∨ sts.length < f ∨ t = 0 ∨ sts.length < t) :
    moveOne f t sts = none := by
  by_cases hf0 : f = 0
  · unfold moveOne
    rw [if_pos hf0]
  by_cases hfr : sts.length < f
  · unfold moveOne
    rw [if_neg hf0, List.getElem?_eq_none (by omega)]
  have hflt : f - 1 < sts.length := by omega
  have htbad : t = 0 ∨ sts.length < t := by
    rcases hbad with h | h | h | h
    · exact absurd h hf0
    · exact absurd h hfr
    · exact Or.inl h
    · exact Or.inr h
  obtain ⟨src, hs⟩ : ∃ src, sts[f - 1]? = some src :=
    ⟨_, List.getElem?_eq_getElem hflt⟩
  unfold moveOne
  rw [if_neg hf0, hs]
  show (match src.getLast? with
    | none => none
    | some c =>
      let sts1 := sts.set (f - 1) src.dropLast
      if t = 0 then none else
      match sts1[t - 1]? with
      | none => none
      | some dst => some (sts1.set (t - 1) (dst ++ [c]))) = none
  cases hl : src.getLast? with
  | none => rfl
  | some c =>
    show (if t = 0 then none else
      match (sts.set (f - 1) src.dropLast)[t - 1]? with
      | none => none
      | some dst =>
        some ((sts.set (f - 1) src.dropLast).set (t - 1) (dst ++ [c]))) = none
    rcases htbad with h | h
    · rw [if_pos h]
    · have ht0 : t ≠ 0 := by omega
      rw [if_neg ht0,
        List.getElem?_eq_none (by rw [List.length_set]; omega)]

/-- The 9000 engine panics on a bad index as soon as `amount ≥ 1`. -/
theorem mover9000Loop_none_of_bad (a f t : Nat) (sts : List Stack)
    (ha : 1 ≤ a)
    (hbad : f = 0 ∨ sts.length < f ∨ t = 0 ∨ sts.length < t) :
    mover9000Loop a f t sts = none := by
  cases a with
  | zero => omega
  | succ a =>
    show (match moveOne f t sts with
      | none => none
      | some s1 => mover9000Loop a f t s1) = _
    rw [moveOne_none_of_bad f t sts hbad]

/-- The first 9001 loop panics on a bad source index as soon as
`amount ≥ 1`. -/
theorem popLoop_none_of_badf (a f : Nat) (sts : List Stack) (buf : List Char)
    (ha : 1 ≤ a) (hbad : f = 0 ∨ sts.length < f) :
    popLoop a f sts buf = none := by
  cases a with
  | zero => omega
  | succ a =>
    show (if f = 0 then none else
      match sts[f - 1]? with
      | none => none
      | some src =>
        match src.getLast? with
        | none => none
        | some c => popLoop a f (sts.set (f - 1) src.dropLast) (buf ++ [c])) = _
    rcases hbad with h | h
    · rw [if_pos h]
    · by_cases hf0 : f = 0
      · rw [if_pos hf0]
      · rw [if_neg hf0, List.getElem?_eq_none (by omega)]

/-- The second 9001 loop panics on a bad destination index when the
buffer is non-empty. -/
theorem pushBufferLoop_none_of_bad (n t : Nat) (sts : List Stack)
    (buf : List Char) (hn : 1 ≤ n) (hbne : buf ≠ [])
    (hbad : t = 0 ∨ sts.length < t) :
    pushBufferLoop n t sts buf = none := by
  cases n with
  | zero => omega
  | succ n =>
    obtain ⟨br, c, hsplit⟩ : ∃ br ch, buf = br ++ [ch] :=
      ⟨buf.dropLast, buf.getLast hbne, (List.dropLast_append_getLast hbne).symm⟩
    subst hsplit
    show (match (br ++ [c]).getLast? with
      | none => none
      | some ch =>
        if t = 0 then none else
        match sts[t - 1]? with
        | none => none
        | some dst =>
          pushBufferLoop n t (sts.set (t - 1) (dst ++ [ch]))
            (br ++ [c]).dropLast) = _
    simp only [List.getLast?_concat, List.dropLast_concat]
    rcases hbad with h | h
    · rw [if_pos h]
    · by_cases ht0 : t = 0
      · rw [if_pos ht0]
      · rw [if_neg ht0, List.getElem?_eq_none (by omega)]

/-- `moveOne` with an empty source stack panics at the first pop,
whatever the destination index. -/
theorem moveOne_none_of_empty (f t : Nat) (sts : List Stack)
    (hf0 : f ≠ 0) (hsrc : sts[f - 1]? = some []) :
    moveOne f t sts = none := by
  unfold moveOne
  rw [if_neg hf0, hsrc]
  rfl

/-- `moveOne` with source = destination and a non-empty source returns
the collection unchanged: the popped crate is pushed straight back onto
the same (already mutated) stack. -/
theorem moveOne_same (f : Nat) (sts : List Stack) (src : Stack)
    (hf0 : f ≠ 0) (hsrc : sts[f - 1]? = some src) (hne : src ≠ []) :
    moveOne f f sts = some sts := by
  have hflt : f - 1 < sts.length := (List.getElem?_eq_some_iff.mp hsrc).1
  obtain ⟨sr, c, hsplit⟩ : ∃ sr ch, src = sr ++ [ch] :=
    ⟨src.dropLast, src.getLast hne, (List.dropLast_append_getLast hne).symm⟩
  subst hsplit
  unfold moveOne
  rw [if_neg hf0, hsrc]
  simp only [List.getLast?_concat, List.dropLast_concat]
  rw [if_neg hf0, List.getElem?_set_self hflt]
  show some ((sts.set (f - 1) sr).set (f - 1) (sr ++ [c])) = some sts
  rw [List.set_set, set_of_getElem? sts _ _ hsrc]

/-- The whole 9000 loop with source = destination and a non-empty
source succeeds and is the identity, for every amount. -/
theorem mover9000Loop_same (f : Nat) (sts : List Stack) (src : Stack)
    (hf0 : f ≠ 0) (hsrc : sts[f - 1]? = some src) (hne : src ≠ []) :
    ∀ a : Nat, mover9000Loop a f f sts = some sts := by
  intro a
  induction a with
  | zero => rfl
  | succ a ih =>
    show (match moveOne f f sts with
      | none => none
      | some s1 => mover9000Loop a f f s1) = _
    rw [moveOne_same f sts src hf0 hsrc hne]
    exact ih

/-- C3 (amended: the single-transfer engine panics only when the two
indices differ or the source stack is empty): with in-range indices and
a source stack shorter than `amount`, the bulk engine always panics;
the single-transfer engine panics when source ≠ destination, and also
when source = destination with an empty source stack; but with
source = destination and a non-empty source it pops and re-pushes the
same top crate each iteration and returns the collection unchanged. -/
theorem insufficient_crates_abort (a f t : Nat) (sts : List Stack)
    (src : Stack) (hf0 : f ≠ 0) (ht0 : t ≠ 0)
    (hf : f ≤ sts.length) (ht : t ≤ sts.length)
    (hsrc : sts[f - 1]? = some src) (hlt : src.length < a) :
    apply_as_crate_mover_9001 ⟨a, f, t⟩ sts = none ∧
    (f ≠ t → apply_as_crate_mover_9000 ⟨a, f, t⟩ sts = none) ∧
    (f = t → src = [] → apply_as_crate_mover_9000 ⟨a, f, t⟩ sts = none) ∧
    (f = t → src ≠ [] →
      apply_as_crate_mover_9000 ⟨a, f, t⟩ sts = some sts) := by
  refine ⟨?_, ?_, ?_, ?_⟩
  · show (match popLoop a f sts [] with
      | none => none
      | some (sts1, buffer) =>
        (pushBufferLoop buffer.length t sts1 buffer).map Prod.fst) = none
    rw [popLoop_none a f sts src [] hf0 hsrc hlt]
  · intro hft
    exact mover9000Loop_none a f t sts src hf0 hft hsrc hlt
  · intro _ hempty
    subst hempty
    cases a with
    | zero => omega
    | succ a =>
      show (match moveOne f t sts with
        | none => none
        | some s1 => mover9000Loop a f t s1) = none
      rw [moveOne_none_of_empty f t sts hf0 hsrc]
  · intro hft hne
    subst hft
    exact mover9000Loop_same f sts src hf0 hsrc hne a

/-- Witness for `insufficient_crates_abort` at a concrete input. -/
theorem insufficient_crates_abort_witness :
    (['a'] : Stack).length < 3 ∧
    (apply_as_crate_mover_9001 ⟨3, 1, 2⟩ [['a'], []] = none ∧
     ((1 : Nat) ≠ 2 → apply_as_crate_mover_9000 ⟨3, 1, 2⟩ [['a'], []] = none) ∧
     ((1 : Nat) = 2 → (['a'] : Stack) = [] →
       apply_as_crate_mover_9000 ⟨3, 1, 2⟩ [['a'], []] = none) ∧
     ((1 : Nat) = 2 → (['a'] : Stack) ≠ [] →
       apply_as_crate_mover_9000 ⟨3, 1, 2⟩ [['a'], []] = some [['a'], []])) :=
  ⟨by decide,
   insufficient_crates_abort 3 1 2 [['a'], []] ['a']
    (by decide) (by decide) (by decide) (by decide) (by decide) (by decide)⟩

/-- C3 counterexample: with source = destination (in range) and
`amount` larger than the stack, the single-transfer engine does NOT
panic — each iteration pops the top crate and pushes it straight back,
so the stack never empties. -/
theorem insufficient_same_stack_counterexample :
    apply_as_crate_mover_9000 ⟨2, 1, 1⟩ [['a']] = some [['a']] := by decide

/-- C6 (amended: only instructions with `amount ≥ 1`): a source or
destination index that is 0 or exceeds the stack count makes both
engines panic, provided at least one crate is moved. -/
theorem bad_index_aborts (a f t : Nat) (sts : List Stack) (ha : 1 ≤ a)
    (hbad : f = 0 ∨ sts.length < f ∨ t = 0 ∨ sts.length < t) :
    apply_as_crate_mover_9000 ⟨a, f, t⟩ sts = none ∧
    apply_as_crate_mover_9001 ⟨a, f, t⟩ sts = none := by
  constructor
  · exact mover9000Loop_none_of_bad a f t sts ha hbad
  · show (match popLoop a f sts [] with
      | none => none
      | some (sts1, buffer) =>
        (pushBufferLoop buffer.length t sts1 buffer).map Prod.fst) = none
    by_cases hfb : f = 0 ∨ sts.length < f
    · rw [popLoop_none_of_badf a f sts [] ha hfb]
    · push_neg at hfb
      obtain ⟨hf0, hfr⟩ := hfb
      have hflt : f - 1 < sts.length := by omega
      obtain ⟨src, hs⟩ : ∃ src, sts[f - 1]? = some src :=
        ⟨_, List.getElem?_eq_getElem hflt⟩
      have htbad : t = 0 ∨ sts.length < t := by
        rcases hbad with h | h | h | h
        · exact absurd h hf0
        · omega
        · exact Or.inl h
        · exact Or.inr h
      by_cases hlen : src.length < a
      · rw [popLoop_none a f sts src [] hf0 hs hlen]
      · push_neg at hlen
        rw [popLoop_eq a f sts src [] hf0 hs hlen]
        show (pushBufferLoop
          ([] ++ (src.drop (src.length - a)).reverse).length t
          (sts.set (f - 1) (src.take (src.length - a)))
          ([] ++ (src.drop (src.length - a)).reverse)).map Prod.fst = none
        have hblen : ([] ++ (src.drop (src.length - a)).reverse).length = a := by
          simp only [List.nil_append, List.length_reverse, List.length_drop]
          omega
        have hbne : ([] ++ (src.drop (src.length - a)).reverse) ≠ [] := by
          intro hh
          rw [hh] at hblen
          simp at hblen
          omega
        have htbad2 : t = 0 ∨
            (sts.set (f - 1) (src.take (src.length - a))).length < t := by
          rw [List.length_set]
          exact htbad
        rw [pushBufferLoop_none_of_bad _ t _ _ (by rw [hblen]; omega)
          hbne htbad2]
        rfl

/-- Witness for `bad_index_aborts` at a concrete input. -/
theorem bad_index_aborts_witness :
    (1 : Nat) ≤ 1 ∧
    (apply_as_crate_mover_9000 ⟨1, 0, 1⟩ [['a']] = none ∧
     apply_as_crate_mover_9001 ⟨1, 0, 1⟩ [['a']] = none) :=
  ⟨le_rfl, bad_index_aborts 1 0 1 [['a']] le_rfl (Or.inl rfl)⟩

/-- C6 counterexample: an instruction with `amount = 0` and invalid
indices does NOT abort — both loops run zero iterations and succeed. -/
theorem bad_index_zero_amount_counterexample :
    apply_as_crate_mover_9000 ⟨0, 0, 0⟩ [] = some [] ∧
    apply_as_crate_mover_9001 ⟨0, 0, 0⟩ [] = some [] := by
  constructor <;> rfl

/-- Replacing the `n`-th stack: the overall character multiset changes by
exactly swapping the old content `x` for the new content `y`. -/
theorem flatten_set_multiset {α : Type} (l : List (List α)) :
    ∀ (n : Nat) (x y : List α), l[n]? = some x →
    ((l.set n y).flatten : Multiset α) + ↑x = (l.flatten : Multiset α) + ↑y := by
  induction l with
  | nil => intro n x y h; simp at h
  | cons z zs ih =>
    intro n x y h
    cases n with
    | zero =>
      rw [List.getElem?_cons_zero] at h
      obtain rfl : z = x := Option.some.inj h
      show ((y :: zs).flatten : Multiset α) + ↑z = ↑((z :: zs).flatten) + ↑y
      rw [List.flatten_cons, List.flatten_cons, ← Multiset.coe_add,
        ← Multiset.coe_add]
      abel
    | succ m =>
      rw [List.getElem?_cons_succ] at h
      show ((z :: zs.set m y).flatten : Multiset α) + ↑x = _
      rw [List.flatten_cons, List.flatten_cons, ← Multiset.coe_add,
        ← Multiset.coe_add, add_assoc, add_assoc, ih m x y h]

/-- Inversion of a successful `moveOne` step. -/
theorem moveOne_some_inv (f t : Nat) (sts s1 : List Stack)
    (h : moveOne f t sts = some s1) :
    ∃ src c dst, sts[f - 1]? = some (src ++ [c]) ∧
      (sts.set (f - 1) src)[t - 1]? = some dst ∧
      s1 = (sts.set (f - 1) src).set (t - 1) (dst ++ [c]) := by
  by_cases hf0 : f = 0
  · exfalso
    unfold moveOne at h
    rw [if_pos hf0] at h
    exact Option.noConfusion h
  cases hs : sts[f - 1]? with
  | none =>
    exfalso
    unfold moveOne at h
    rw [if_neg hf0, hs] at h
    exact Option.noConfusion h
  | some src0 =>
    unfold moveOne at h
    rw [if_neg hf0, hs] at h
    change (match src0.getLast? with
      | none => none
      | some c =>
        if t = 0 then none else
        match (sts.set (f - 1) src0.dropLast)[t - 1]? with
        | none => none
        | some dst =>
          some ((sts.set (f - 1) src0.dropLast).set (t - 1) (dst ++ [c]))) =
        some s1 at h
    cases hl : src0.getLast? with
    | none =>
      exfalso
      rw [hl] at h
      exact Option.noConfusion h
    | some c =>
      rw [hl] at h
      obtain ⟨sr, rfl⟩ := List.getLast?_eq_some_iff.mp hl
      rw [List.dropLast_concat] at h
      change (if t = 0 then none else
        match (sts.set (f - 1) sr)[t - 1]? with
        | none => none
        | some dst =>
          some ((sts.set (f - 1) sr).set (t - 1) (dst ++ [c]))) = some s1 at h
      by_cases ht0 : t = 0
      · exfalso
        rw [if_pos ht0] at h
        exact Option.noConfusion h
      rw [if_neg ht0] at h
      cases hd : (sts.set (f - 1) sr)[t - 1]? with
      | none =>
        exfalso
        rw [hd] at h
        exact Option.noConfusion h
      | some dst =>
        rw [hd] at h
        change some ((sts.set (f - 1) sr).set (t - 1) (dst ++ [c])) =
          some s1 at h
        exact ⟨sr, c, dst, rfl, hd, (Option.some.inj h).symm⟩

/-- A successful `moveOne` step preserves the number of stacks and the
multiset of all characters. -/
theorem moveOne_preserves (f t : Nat) (sts s1 : List Stack)
    (h : moveOne f t sts = some s1) :
    s1.length = sts.length ∧ (s1.flatten : Multiset Char) = ↑sts.flatten := by
  obtain ⟨src, c, dst, hs, hd, rfl⟩ := moveOne_some_inv f t sts s1 h
  constructor
  · rw [List.length_set, List.length_set]
  · have h1 := flatten_set_multiset sts (f - 1) (src ++ [c]) src hs
    have h2 := flatten_set_multiset (sts.set (f - 1) src) (t - 1) dst
      (dst ++ [c]) hd
    rw [← Multiset.coe_add, add_comm (↑src : Multiset Char)
      (↑[c] : Multiset Char), ← add_assoc] at h1
    have e1 : ((sts.set (f - 1) src).flatten : Multiset Char) + ↑[c] =
        ↑sts.flatten := add_right_cancel h1
    rw [← Multiset.coe_add, add_comm (↑dst : Multiset Char)
      (↑[c] : Multiset Char), ← add_assoc] at h2
    have e2 := add_right_cancel h2
    rw [e2, e1]

/-- Every successful run of the 9000 loop preserves stack count and the
character multiset. -/
theorem mover9000Loop_preserves (a f t : Nat) :
    ∀ sts out, mover9000Loop a f t sts = some out →
    out.length = sts.length ∧ (out.flatten : Multiset Char) = ↑sts.flatten := by
  induction a with
  | zero =>
    intro sts out h
    change some sts = some out at h
    cases h
    exact ⟨rfl, rfl⟩
  | succ a ih =>
    intro sts out h
    rw [mover9000Loop_succ] at h
    cases hm : moveOne f t sts with
    | none =>
      rw [hm] at h
      exact Option.noConfusion h
    | some s1 =>
      rw [hm] at h
      change mover9000Loop a f t s1 = some out at h
      obtain ⟨hl1, hp1⟩ := moveOne_preserves f t sts s1 hm
      obtain ⟨hl2, hp2⟩ := ih s1 out h
      exact ⟨hl2.trans hl1, hp2.trans hp1⟩

/-- Every successful run of the first 9001 loop conserves stack count and
moves characters only between the stacks and the buffer. -/
theorem popLoop_preserves (a f : Nat) :
    ∀ (sts : List Stack) (buf : List Char) (out : List Stack)
      (obuf : List Char), popLoop a f sts buf = some (out, obuf) →
    out.length = sts.length ∧
    (out.flatten : Multiset Char) + ↑obuf = ↑sts.flatten + ↑buf := by
  induction a with
  | zero =>
    intro sts buf out obuf h
    change some (sts, buf) = some (out, obuf) at h
    cases h
    exact ⟨rfl, rfl⟩
  | succ a ih =>
    intro sts buf out obuf h
    change (if f = 0 then none else
      match sts[f - 1]? with
      | none => none
      | some src =>
        match src.getLast? with
        | none => none
        | some c =>
          popLoop a f (sts.set (f - 1) src.dropLast) (buf ++ [c])) =
        some (out, obuf) at h
    by_cases hf0 : f = 0
    · rw [if_pos hf0] at h
      exact Option.noConfusion h
    rw [if_neg hf0] at h
    cases hs : sts[f - 1]? with
    | none =>
      rw [hs] at h
      exact Option.noConfusion h
    | some src =>
      rw [hs] at h
      change (match src.getLast? with
        | none => none
        | some c =>
          popLoop a f (sts.set (f - 1) src.dropLast) (buf ++ [c])) =
        some (out, obuf) at h
      cases hl : src.getLast? with
      | none =>
        rw [hl] at h
        exact Option.noConfusion h
      | some c =>
        rw [hl] at h
        change popLoop a f (sts.set (f - 1) src.dropLast) (buf ++ [c]) =
          some (out, obuf) at h
        obtain ⟨sr, rfl⟩ := List.getLast?_eq_some_iff.mp hl
        rw [List.dropLast_concat] at h
        obtain ⟨hlen, hperm⟩ := ih (sts.set (f - 1) sr) (buf ++ [c]) out obuf h
        have hflat := flatten_set_multiset sts (f - 1) (sr ++ [c]) sr hs
        constructor
        · rw [hlen, List.length_set]
        · rw [← Multiset.coe_add, add_comm (↑sr : Multiset Char)
            (↑[c] : Multiset Char), ← add_assoc] at hflat
          have e1 : ((sts.set (f - 1) sr).flatten : Multiset Char) + ↑[c] =
              ↑sts.flatten := add_right_cancel hflat
          rw [hperm, ← Multiset.coe_add, add_comm (↑buf : Multiset Char)
            (↑[c] : Multiset Char), ← add_assoc, e1]

/-- Every successful run of the second 9001 loop conserves stack count,
moves characters only between the buffer and the stacks, and consumes
exactly `n` buffer characters. -/
theorem pushBufferLoop_preserves (n t : Nat) :
    ∀ (sts : List Stack) (buf : List Char) (out : List Stack)
      (obuf : List Char), pushBufferLoop n t sts buf = some (out, obuf) →
    out.length = sts.length ∧
    (out.flatten : Multiset Char) + ↑obuf = ↑sts.flatten + ↑buf ∧
    obuf.length + n = buf.length := by
  induction n with
  | zero =>
    intro sts buf out obuf h
    change some (sts, buf) = some (out, obuf) at h
    cases h
    exact ⟨rfl, rfl, rfl⟩
  | succ n ih =>
    intro sts buf out obuf h
    change (match buf.getLast? with
      | none => none
      | some c =>
        if t = 0 then none else
        match sts[t - 1]? with
        | none => none
        | some dst =>
          pushBufferLoop n t (sts.set (t - 1) (dst ++ [c])) buf.dropLast) =
        some (out, obuf) at h
    cases hl : buf.getLast? with
    | none =>
      rw [hl] at h
      exact Option.noConfusion h
    | some c =>
      rw [hl] at h
      change (if t = 0 then none else
        match sts[t - 1]? with
        | none => none
        | some dst =>
          pushBufferLoop n t (sts.set (t - 1) (dst ++ [c])) buf.dropLast) =
        some (out, obuf) at h
      by_cases ht0 : t = 0
      · rw [if_pos ht0] at h
        exact Option.noConfusion h
      rw [if_neg ht0] at h
      cases hd : sts[t - 1]? with
      | none =>
        rw [hd] at h
        exact Option.noConfusion h
      | some dst =>
        rw [hd] at h
        change pushBufferLoop n t (sts.set (t - 1) (dst ++ [c]))
          buf.dropLast = some (out, obuf) at h
        obtain ⟨br, rfl⟩ := List.getLast?_eq_some_iff.mp hl
        rw [List.dropLast_concat] at h
        obtain ⟨hlen, hperm, hblen⟩ :=
          ih (sts.set (t - 1) (dst ++ [c])) br out obuf h
        have hflat := flatten_set_multiset sts (t - 1) dst (dst ++ [c]) hd
        refine ⟨by rw [hlen, List.length_set], ?_, ?_⟩
        · rw [← Multiset.coe_add, add_comm (↑dst : Multiset Char)
            (↑[c] : Multiset Char), ← add_assoc] at hflat
          have e1 : ((sts.set (t - 1) (dst ++ [c])).flatten : Multiset Char) =
              (↑sts.flatten + ↑[c] : Multiset Char) := add_right_cancel hflat
          rw [hperm, e1, ← Multiset.coe_add, add_assoc,
            add_comm (↑[c] : Multiset Char) (↑br : Multiset Char)]
        · rw [List.length_append, List.length_cons, List.length_nil]
          omega

/-- A successful `apply_as_crate_mover_9001` preserves stack count and the
character multiset. -/
theorem apply9001_preserves (i : Instruction) (sts out : List Stack)
    (h : apply_as_crate_mover_9001 i sts = some out) :
    out.length = sts.length ∧ (out.flatten : Multiset Char) = ↑sts.flatten := by
  change (match popLoop i.amount i.«from» sts [] with
    | none => none
    | some (sts1, buffer) =>
      (pushBufferLoop buffer.length i.«to» sts1 buffer).map Prod.fst) =
      some out at h
  cases hp : popLoop i.amount i.«from» sts [] with
  | none =>
    rw [hp] at h
    exact Option.noConfusion h
  | some pr =>
    obtain ⟨sts1, buffer⟩ := pr
    rw [hp] at h
    change (pushBufferLoop buffer.length i.«to» sts1 buffer).map Prod.fst =
      some out at h
    cases hq : pushBufferLoop buffer.length i.«to» sts1 buffer with
    | none =>
      rw [hq] at h
      exact Option.noConfusion h
    | some pr2 =>
      obtain ⟨out2, obuf⟩ := pr2
      rw [hq] at h
      change some out2 = some out at h
      cases h
      obtain ⟨hl1, hp1⟩ :=
        popLoop_preserves i.amount i.«from» sts [] sts1 buffer hp
      obtain ⟨hl2, hp2, hb2⟩ :=
        pushBufferLoop_preserves buffer.length i.«to» sts1 buffer out obuf hq
      have hobuf : obuf = [] := List.length_eq_zero.mp (by omega)
      subst hobuf
      refine ⟨hl2.trans hl1, ?_⟩
      have := hp2.trans hp1
      simpa using this

/-- C10: every successful application of an instruction under either
engine preserves the number of stacks and the multiset of all characters
across the collection. -/
theorem successful_apply_preserves (i : Instruction) (sts out : List Stack)
    (h : apply_as_crate_mover_9000 i sts = some out ∨
      apply_as_crate_mover_9001 i sts = some out) :
    out.length = sts.length ∧ (out.flatten : Multiset Char) = ↑sts.flatten := by
  rcases h with h | h
  · exact mover9000Loop_preserves i.amount i.«from» i.«to» sts out h
  · exact apply9001_preserves i sts out h

/-- Witness for `successful_apply_preserves` at a concrete input. -/
theorem successful_apply_preserves_witness :
    (apply_as_crate_mover_9000 ⟨1, 1, 2⟩ [['a'], []] = some [[], ['a']] ∨
     apply_as_crate_mover_9001 ⟨1, 1, 2⟩ [['a'], []] = some [[], ['a']]) ∧
    (([[], ['a']] : List Stack).length = ([['a'], []] : List Stack).length ∧
     (([[], ['a']] : List Stack).flatten : Multiset Char) =
       ↑([['a'], []] : List Stack).flatten) :=
  ⟨Or.inl (by decide),
   successful_apply_preserves ⟨1, 1, 2⟩ [['a'], []] [[], ['a']]
     (Or.inl (by decide))⟩

/-- The Rust unit test `test_instruction_from_str`. -/
theorem from_str_example :
    from_str "move 1 from 2 to 1".toList = some ⟨1, 2, 1⟩ := by decide

/-- C7: instruction parsing is lenient per line — a line contributes its
parse result if the anchored pattern and all three integer parses
succeed and nothing otherwise, lines before and after are unaffected,
and a line fails exactly when the regex fails or a captured group fails
integer parsing. -/
theorem instruction_parsing_lenient (pre post : List (List Char))
    (l : List Char) :
    parseInstructions (pre ++ l :: post) =
      parseInstructions pre ++ (from_str l).toList ++ parseInstructions post ∧
    (from_str l = none ↔
      regexCaptures l = none ∨
      ∃ a b c, regexCaptures l = some (a, b, c) ∧
        (parse_usize a = none ∨ parse_usize b = none ∨
          parse_usize c = none)) := by
  constructor
  · cases h : from_str l with
    | none =>
      simp [parseInstructions, List.filterMap_append, List.filterMap_cons, h]
    | some i =>
      simp [parseInstructions, List.filterMap_append, List.filterMap_cons, h]
  · cases h : regexCaptures l with
    | none => simp [from_str, h]
    | some abc =>
      obtain ⟨a, b, c⟩ := abc
      cases ha : parse_usize a <;> cases hb : parse_usize b <;>
        cases hc : parse_usize c <;>
        simp only [from_str, h, ha, hb, hc, reduceCtorEq, Option.some.injEq,
          Prod.mk.injEq, false_iff, true_iff, not_exists, not_and, not_or,
          iff_true, iff_false] <;>
      first
      | exact Or.inr ⟨a, b, c, ⟨rfl, rfl, rfl⟩, by simp [ha, hb, hc]⟩
      | exact ⟨not_false, fun x y z hxyz => by
          obtain ⟨rfl, rfl, rfl⟩ := hxyz
          simp [ha, hb, hc]⟩

/-- The Rust unit test `test_load_stacks` (note the one-space indent of
the test's diagram: entries land at positions 2, 6, 10, …, still in
columns 0, 1, 2 after division by 4). -/
theorem load_stacks_example :
    load_stacks ["     [D]".toList, " [N] [C]".toList, " [Z] [M] [P]".toList,
      "  1   2   3".toList] = some [['Z', 'N'], ['M', 'C', 'D'], ['P']] := by
  decide

/-- Entries of a rendered crate row: exactly the occupied cells, at
offsets `k + 4*i + 1`. -/
theorem lineEntriesFrom_renderRow :
    ∀ (cells : List (Option Char)) (k : Nat),
    (∀ ch : Char, some ch ∈ cells → crateChar ch = true) →
    lineEntriesFrom k (renderRow cells) = cellsEntries k cells := by
  intro cells
  induction cells with
  | nil => intro k _; rfl
  | cons cell rest ih =>
    intro k hc
    cases cell with
    | none =>
      have h1 : lineEntriesFrom k (renderRow (none :: rest)) =
          lineEntriesFrom (k + 1 + 1 + 1 + 1) (renderRow rest) := rfl
      have h2 : cellsEntries k (none :: rest) = cellsEntries (k + 4) rest := rfl
      rw [h1, h2, show k + 1 + 1 + 1 + 1 = k + 4 from by omega]
      exact ih (k + 4) fun ch hch => hc ch (List.mem_cons_of_mem _ hch)
    | some d =>
      have hd : crateChar d = true := hc d (List.mem_cons_self _ _)
      have h1 : lineEntriesFrom k (renderRow (some d :: rest)) =
          List.filter (fun p => crateChar p.2)
            ((k, '[') :: (k + 1, d) :: (k + 1 + 1, ']') ::
              (k + 1 + 1 + 1, ' ') ::
              List.enumFrom (k + 1 + 1 + 1 + 1) (renderRow rest)) := rfl
      have h2 : cellsEntries k (some d :: rest) =
          (k + 1, d) :: cellsEntries (k + 4) rest := rfl
      have hb1 : crateChar '[' = false := rfl
      have hb2 : crateChar ']' = false := rfl
      have hb3 : crateChar ' ' = false := rfl
      rw [h1, h2, List.filter_cons, List.filter_cons, List.filter_cons,
        List.filter_cons]
      simp only [hb1, hb2, hb3, hd, Bool.false_eq_true, if_false, if_true]
      have h3 : List.filter (fun p => crateChar p.2)
          (List.enumFrom (k + 1 + 1 + 1 + 1) (renderRow rest)) =
          lineEntriesFrom (k + 1 + 1 + 1 + 1) (renderRow rest) := rfl
      rw [h3, show k + 1 + 1 + 1 + 1 = k + 4 from by omega,
        ih (k + 4) fun ch hch => hc ch (List.mem_cons_of_mem _ hch)]

/-- Entries of the rendered label row: exactly the labels, at offsets
`k + 4*i + 1` — the same entries as a fully occupied cell row. -/
theorem lineEntriesFrom_renderLabels :
    ∀ (labels : List Char) (k : Nat),
    (∀ ch ∈ labels, crateChar ch = true) →
    lineEntriesFrom k (renderLabels labels) =
      cellsEntries k (labels.map some) := by
  intro labels
  induction labels with
  | nil => intro k _; rfl
  | cons d rest ih =>
    intro k hc
    have hd : crateChar d = true := hc d (List.mem_cons_self _ _)
    have h1 : lineEntriesFrom k (renderLabels (d :: rest)) =
        List.filter (fun p => crateChar p.2)
          ((k, ' ') :: (k + 1, d) :: (k + 1 + 1, ' ') ::
            (k + 1 + 1 + 1, ' ') ::
            List.enumFrom (k + 1 + 1 + 1 + 1) (renderLabels rest)) := rfl
    have h2 : cellsEntries k ((d :: rest).map some) =
        (k + 1, d) :: cellsEntries (k + 4) (rest.map some) := rfl
    have hb3 : crateChar ' ' = false := rfl
    rw [h1, h2, List.filter_cons, List.filter_cons, List.filter_cons,
      List.filter_cons]
    simp only [hb3, hd, Bool.false_eq_true, if_false, if_true]
    have h3 : List.filter (fun p => crateChar p.2)
        (List.enumFrom (k + 1 + 1 + 1 + 1) (renderLabels rest)) =
        lineEntriesFrom (k + 1 + 1 + 1 + 1) (renderLabels rest) := rfl
    rw [h3, show k + 1 + 1 + 1 + 1 = k + 4 from by omega,
      ih (k + 4) fun ch hch => hc ch (List.mem_cons_of_mem _ hch)]

/-- `stackInsert` grows the stack list exactly to cover index `i`. -/
theorem stackInsert_length :
    ∀ (vec : List Stack) (i : Nat) (ch : Char),
    (stackInsert vec i ch).length = max vec.length (i + 1) := by
  intro vec
  induction vec with
  | nil =>
    intro i
    induction i with
    | zero => intro ch; rfl
    | succ n ihn =>
      intro ch
      show (([] : Stack) :: stackInsert [] n ch).length = _
      rw [List.length_cons, ihn ch]
      simp only [List.length_nil]
      omega
  | cons s rest ih =>
    intro i ch
    cases i with
    | zero =>
      show ((ch :: s) :: rest).length = _
      simp only [List.length_cons]
      omega
    | succ n =>
      show (s :: stackInsert rest n ch).length = _
      rw [List.length_cons, ih n ch]
      simp only [List.length_cons]
      omega

/-- Reading back after `stackInsert`: stack `i` gains the character at
its front, every other stack is unchanged (with `[]` for absent
indices, matching the padding). -/
theorem stackInsert_getD :
    ∀ (vec : List Stack) (i : Nat) (ch : Char) (j : Nat),
    (stackInsert vec i ch).getD j [] =
      if j = i then ch :: vec.getD i [] else vec.getD j [] := by
  intro vec
  induction vec with
  | nil =>
    intro i
    induction i with
    | zero =>
      intro ch j
      cases j with
      | zero => rfl
      | succ m => simp [stackInsert]
    | succ n ihn =>
      intro ch j
      cases j with
      | zero => simp [stackInsert]
      | succ m =>
        show (stackInsert [] n ch).getD m [] = _
        rw [ihn ch m]
        by_cases hmn : m = n
        · simp [hmn]
        · simp [hmn, fun h => hmn (Nat.succ_injective h)]
  | cons s rest ih =>
    intro i ch j
    cases i with
    | zero =>
      cases j with
      | zero => simp [stackInsert]
      | succ m => simp [stackInsert]
    | succ n =>
      cases j with
      | zero => simp [stackInsert]
      | succ m =>
        show (stackInsert rest n ch).getD m [] = _
        rw [ih n ch m]
        by_cases hmn : m = n
        · simp [hmn]
        · simp [hmn, fun h => hmn (Nat.succ_injective h)]

/-- What the `load_stacks` fold puts into stack `j`: the characters of
the column-`j` entries, in reverse scan order, in front of whatever was
there before. -/
theorem foldl_stackInsert_getD :
    ∀ (es : List (Nat × Char)) (vec : List Stack) (j : Nat),
    (es.foldl (fun v p => stackInsert v (p.1 / 4) p.2) vec).getD j [] =
      ((es.filter fun p => p.1 / 4 = j).map Prod.snd).reverse ++
        vec.getD j [] := by
  intro es
  induction es with
  | nil => intro vec j; simp
  | cons p rest ih =>
    intro vec j
    rw [List.foldl_cons, ih, stackInsert_getD]
    by_cases hpj : p.1 / 4 = j
    · rw [hpj, if_pos rfl]
      simp [List.filter_cons, hpj]
    · rw [if_neg fun h => hpj h.symm]
      simp [List.filter_cons, hpj]

/-- The fold never shrinks the stack list. -/
theorem foldl_stackInsert_length_mono :
    ∀ (es : List (Nat × Char)) (vec : List Stack),
    vec.length ≤
      (es.foldl (fun v p => stackInsert v (p.1 / 4) p.2) vec).length := by
  intro es
  induction es with
  | nil => intro vec; simp
  | cons p rest ih =>
    intro vec
    rw [List.foldl_cons]
    calc vec.length ≤ (stackInsert vec (p.1 / 4) p.2).length := by
          rw [stackInsert_length]; omega
      _ ≤ _ := ih _

/-- The fold's final length is bounded by any bound on all entry
columns. -/
theorem foldl_stackInsert_length_le :
    ∀ (es : List (Nat × Char)) (vec : List Stack) (N : Nat),
    vec.length ≤ N → (∀ p ∈ es, p.1 / 4 + 1 ≤ N) →
    (es.foldl (fun v p => stackInsert v (p.1 / 4) p.2) vec).length ≤ N := by
  intro es
  induction es with
  | nil => intro vec N h _; simpa using h
  | cons p rest ih =>
    intro vec N h hall
    rw [List.foldl_cons]
    refine ih _ N ?_ fun q hq => hall q (List.mem_cons_of_mem _ hq)
    rw [stackInsert_length]
    have := hall p (List.mem_cons_self _ _)
    omega

/-- Every entry forces the fold's final length past its column. -/
theorem foldl_stackInsert_length_ge :
    ∀ (es : List (Nat × Char)) (vec : List Stack) (p : Nat × Char),
    p ∈ es → p.1 / 4 + 1 ≤
      (es.foldl (fun v q => stackInsert v (q.1 / 4) q.2) vec).length := by
  intro es
  induction es with
  | nil => intro vec p h; cases h
  | cons q rest ih =>
    intro vec p hp
    rw [List.foldl_cons]
    rcases List.mem_cons.mp hp with rfl | hp'
    · calc p.1 / 4 + 1 ≤ (stackInsert vec (p.1 / 4) p.2).length := by
            rw [stackInsert_length]; omega
        _ ≤ _ := foldl_stackInsert_length_mono rest _
    · exact ih _ p hp'

/-- Every entry of a cells list rendered from column `m` on sits in
column `m` or later. -/
theorem cellsEntries_col_ge :
    ∀ (cells : List (Option Char)) (m : Nat) (p : Nat × Char),
    p ∈ cellsEntries (4 * m) cells → m ≤ p.1 / 4 := by
  intro cells
  induction cells with
  | nil => intro m p h; cases h
  | cons cell rest ih =>
    intro m p h
    cases cell with
    | none =>
      rw [show cellsEntries (4 * m) (none :: rest) =
        cellsEntries (4 * m + 4) rest from rfl,
        show (4 : Nat) * m + 4 = 4 * (m + 1) from by ring] at h
      have := ih (m + 1) p h
      omega
    | some d =>
      rw [show cellsEntries (4 * m) (some d :: rest) =
        (4 * m + 1, d) :: cellsEntries (4 * m + 4) rest from rfl] at h
      rcases List.mem_cons.mp h with rfl | h'
      · show m ≤ (4 * m + 1) / 4
        omega
      · rw [show (4 : Nat) * m + 4 = 4 * (m + 1) from by ring] at h'
        have := ih (m + 1) p h'
        omega

/-- Every entry of a cells list rendered from column `m` on sits before
column `m +` the number of cells. -/
theorem cellsEntries_col_lt :
    ∀ (cells : List (Option Char)) (m : Nat) (p : Nat × Char),
    p ∈ cellsEntries (4 * m) cells → p.1 / 4 < m + cells.length := by
  intro cells
  induction cells with
  | nil => intro m p h; cases h
  | cons cell rest ih =>
    intro m p h
    cases cell with
    | none =>
      rw [show cellsEntries (4 * m) (none :: rest) =
        cellsEntries (4 * m + 4) rest from rfl,
        show (4 : Nat) * m + 4 = 4 * (m + 1) from by ring] at h
      have := ih (m + 1) p h
      rw [List.length_cons]
      omega
    | some d =>
      rw [show cellsEntries (4 * m) (some d :: rest) =
        (4 * m + 1, d) :: cellsEntries (4 * m + 4) rest from rfl] at h
      rw [List.length_cons]
      rcases List.mem_cons.mp h with rfl | h'
      · show (4 * m + 1) / 4 < m + (rest.length + 1)
        omega
      · rw [show (4 : Nat) * m + 4 = 4 * (m + 1) from by ring] at h'
        have := ih (m + 1) p h'
        omega

/-- An occupied cell yields a member entry. -/
theorem cellsEntries_mem :
    ∀ (cells : List (Option Char)) (k j : Nat) (ch : Char),
    cells.getD j none = some ch →
    (k + 4 * j + 1, ch) ∈ cellsEntries k cells := by
  intro cells
  induction cells with
  | nil => intro k j ch h; simp at h
  | cons cell rest ih =>
    intro k j ch h
    cases j with
    | zero =>
      rw [List.getD_cons_zero] at h
      subst h
      rw [show cellsEntries k (some ch :: rest) =
        (k + 1, ch) :: cellsEntries (k + 4) rest from rfl,
        show k + 4 * 0 + 1 = k + 1 from by omega]
      exact List.mem_cons_self _ _
    | succ j' =>
      rw [List.getD_cons_succ] at h
      have hmem := ih (k + 4) j' ch h
      have harith : k + 4 * (j' + 1) + 1 = (k + 4) + 4 * j' + 1 := by omega
      rw [harith]
      cases cell with
      | none => exact hmem
      | some d =>
        rw [show cellsEntries k (some d :: rest) =
          (k + 1, d) :: cellsEntries (k + 4) rest from rfl]
        exact List.mem_cons_of_mem _ hmem

/-- Filtering a rendered cells list for column `m + j` finds exactly the
`j`-th cell's character (when occupied). -/
theorem cellsEntries_filter :
    ∀ (cells : List (Option Char)) (m j : Nat),
    (cellsEntries (4 * m) cells).filter (fun p => p.1 / 4 = m + j) =
      (cells.getD j none).toList.map fun ch => (4 * (m + j) + 1, ch) := by
  intro cells
  induction cells with
  | nil =>
    intro m j
    rw [List.getD_nil]
    rfl
  | cons cell rest ih =>
    intro m j
    cases cell with
    | none =>
      rw [show cellsEntries (4 * m) (none :: rest) =
        cellsEntries (4 * m + 4) rest from rfl,
        show (4 : Nat) * m + 4 = 4 * (m + 1) from by ring]
      cases j with
      | zero =>
        have hnil : (cellsEntries (4 * (m + 1)) rest).filter
            (fun p => p.1 / 4 = m + 0) = [] := by
          rw [List.filter_eq_nil_iff]
          intro p hp
          have := cellsEntries_col_ge rest (m + 1) p hp
          simp only [decide_eq_true_eq]
          omega
        rw [hnil]
        simp
      | succ j' =>
        rw [show m + (j' + 1) = (m + 1) + j' from by omega,
          List.getD_cons_succ]
        exact ih (m + 1) j'
    | some d =>
      rw [show cellsEntries (4 * m) (some d :: rest) =
        (4 * m + 1, d) :: cellsEntries (4 * m + 4) rest from rfl,
        List.filter_cons,
        show (4 : Nat) * m + 4 = 4 * (m + 1) from by ring]
      cases j with
      | zero =>
        have hcond : ((4 * m + 1) / 4 = m + 0) := by omega
        have hnil : (cellsEntries (4 * (m + 1)) rest).filter
            (fun p => p.1 / 4 = m + 0) = [] := by
          rw [List.filter_eq_nil_iff]
          intro p hp
          have := cellsEntries_col_ge rest (m + 1) p hp
          simp only [decide_eq_true_eq]
          omega
        rw [if_pos (decide_eq_true hcond), hnil]
        simp only [List.getD_cons_zero, Option.toList_some, List.map_cons,
          List.map_nil]
        rw [show 4 * (m + 0) + 1 = 4 * m + 1 from by omega]
      | succ j' =>
        have hcond : ¬ ((4 * m + 1) / 4 = m + (j' + 1)) := by omega
        rw [if_neg fun hdec => hcond (of_decide_eq_true hdec),
          List.getD_cons_succ,
          show m + (j' + 1) = (m + 1) + j' from by omega]
        exact ih (m + 1) j'

/-- Filtering distributes over `flatMap`. -/
theorem filter_flatMap {α β : Type} (l : List α) (g : α → List β)
    (p : β → Bool) :
    (l.flatMap g).filter p = l.flatMap fun x => (g x).filter p := by
  induction l with
  | nil => rfl
  | cons x xs ih => simp [List.flatMap_cons, List.filter_append, ih]

/-- `flatMap` of option-`toList` is `filterMap`. -/
theorem flatMap_toList_eq_filterMap {α β : Type} (l : List α)
    (g : α → Option β) :
    (l.flatMap fun x => (g x).toList) = l.filterMap g := by
  induction l with
  | nil => rfl
  | cons x xs ih =>
    rw [List.flatMap_cons, List.filterMap_cons]
    cases g x <;> simp [ih]

/-- `getD` through `map some`, inside the list. -/
theorem getD_map_some (labels : List Char) (j : Nat)
    (hj : j < labels.length) :
    (labels.map some).getD j none = some (labels.getD j ' ') := by
  rw [List.getD_eq_getElem _ _ (by simpa using hj), List.getElem_map,
    List.getD_eq_getElem _ _ hj]

/-- Entries of the rendered crate rows, row by row. -/
theorem rows_entries :
    ∀ (rows : List (List (Option Char))),
    (∀ r ∈ rows, ∀ ch : Char, some ch ∈ r → crateChar ch = true) →
    (rows.map renderRow).flatMap lineEntries =
      rows.flatMap fun r => cellsEntries 0 r := by
  intro rows
  induction rows with
  | nil => intro _; rfl
  | cons r rest ih =>
    intro hc
    rw [List.map_cons, List.flatMap_cons, List.flatMap_cons,
      show lineEntries (renderRow r) = lineEntriesFrom 0 (renderRow r)
        from rfl,
      lineEntriesFrom_renderRow r 0 (hc r (List.mem_cons_self _ _)),
      ih fun r' hr' => hc r' (List.mem_cons_of_mem _ hr')]

/-- `remove(0)` on every stack succeeds exactly like dropping each head
when no stack is empty. -/
theorem removeLabels_eq :
    ∀ (v : List Stack), (∀ s ∈ v, s ≠ []) →
    removeLabels v = some (v.map List.tail) := by
  intro v
  induction v with
  | nil => intro _; rfl
  | cons s rest ih =>
    intro h
    cases s with
    | nil => exact absurd rfl (h [] (List.mem_cons_self _ _))
    | cons a s' =>
      show (removeLabels rest).map _ = _
      rw [ih fun s hs => h s (List.mem_cons_of_mem _ hs)]
      rfl

/-- The full fold of `load_stacks` on a rendered diagram: stack `j`
holds the label at its front and the reversed column-`j` crate
characters behind it. -/
theorem loadStacksFold_renders (rows : List (List (Option Char)))
    (labels : List Char)
    (hrow : ∀ r ∈ rows, r.length ≤ labels.length)
    (hcell : ∀ r ∈ rows, ∀ ch : Char, some ch ∈ r → crateChar ch = true)
    (hlab : ∀ ch ∈ labels, crateChar ch = true) :
    loadStacksFold (rows.map renderRow ++ [renderLabels labels]) =
      (List.range labels.length).map fun j =>
        labels.getD j ' ' ::
          (rows.filterMap fun r => r.getD j none).reverse := by
  have hE : (rows.map renderRow ++ [renderLabels labels]).flatMap
      lineEntries =
      rows.flatMap (fun r => cellsEntries 0 r) ++
        cellsEntries 0 (labels.map some) := by
    rw [List.flatMap_append, rows_entries rows hcell]
    congr 1
    rw [List.flatMap_cons,
      show ([] : List (List Char)).flatMap lineEntries = [] from rfl,
      List.append_nil]
    exact lineEntriesFrom_renderLabels labels 0 hlab
  have hfold : loadStacksFold (rows.map renderRow ++ [renderLabels labels]) =
      ((rows.flatMap fun r => cellsEntries 0 r) ++
        cellsEntries 0 (labels.map some)).foldl
          (fun v p => stackInsert v (p.1 / 4) p.2) [] := by
    rw [show loadStacksFold (rows.map renderRow ++ [renderLabels labels]) =
      ((rows.map renderRow ++ [renderLabels labels]).flatMap
        lineEntries).foldl (fun v p => stackInsert v (p.1 / 4) p.2) []
      from rfl, hE]
  have hgetD : ∀ j : Nat, j < labels.length →
      (loadStacksFold (rows.map renderRow ++
        [renderLabels labels])).getD j [] =
      labels.getD j ' ' ::
        (rows.filterMap fun r => r.getD j none).reverse := by
    intro j hj
    rw [hfold, foldl_stackInsert_getD, List.getD_nil, List.append_nil,
      List.filter_append]
    have hrowsf : ((rows.flatMap fun r => cellsEntries 0 r).filter fun p =>
        p.1 / 4 = j) = rows.flatMap fun r =>
          (r.getD j none).toList.map fun ch => (4 * j + 1, ch) := by
      rw [filter_flatMap]
      congr 1
      funext r
      have h1 := cellsEntries_filter r 0 j
      simpa using h1
    have hlabf : ((cellsEntries 0 (labels.map some)).filter fun p =>
        p.1 / 4 = j) = [(4 * j + 1, labels.getD j ' ')] := by
      have h1 := cellsEntries_filter (labels.map some) 0 j
      rw [getD_map_some labels j hj] at h1
      simpa using h1
    rw [hrowsf, hlabf, List.map_append, List.reverse_append,
      List.map_flatMap]
    have hsnd : (rows.flatMap fun r => List.map Prod.snd
        ((r.getD j none).toList.map fun ch => (4 * j + 1, ch))) =
        rows.filterMap fun r => r.getD j none := by
      rw [← flatMap_toList_eq_filterMap]
      congr 1
      funext r
      rw [List.map_map]
      simp
    rw [hsnd]
    simp
  have hlen : (loadStacksFold (rows.map renderRow ++
      [renderLabels labels])).length = labels.length := by
    rw [hfold]
    apply le_antisymm
    · apply foldl_stackInsert_length_le
      · simp
      · intro p hp
        rcases List.mem_append.mp hp with hp1 | hp2
        · obtain ⟨r, hr, hpr⟩ := List.mem_flatMap.mp hp1
          have h0 : p ∈ cellsEntries (4 * 0) r := by simpa using hpr
          have hlt := cellsEntries_col_lt r 0 p h0
          have hle := hrow r hr
          omega
        · have h0 : p ∈ cellsEntries (4 * 0) (labels.map some) := by
            simpa using hp2
          have hlt := cellsEntries_col_lt (labels.map some) 0 p h0
          rw [List.length_map] at hlt
          omega
    · cases Nat.eq_zero_or_pos labels.length with
      | inl h0 => rw [h0]; exact Nat.zero_le _
      | inr hpos =>
        have hjlt : labels.length - 1 < labels.length := by omega
        have hget : (labels.map some).getD (labels.length - 1) none =
            some (labels.getD (labels.length - 1) ' ') :=
          getD_map_some labels _ hjlt
        have hmem : ((0 + 4 * (labels.length - 1) + 1,
            labels.getD (labels.length - 1) ' ') : Nat × Char) ∈
            (rows.flatMap fun r => cellsEntries 0 r) ++
              cellsEntries 0 (labels.map some) := by
          apply List.mem_append.mpr
          right
          exact cellsEntries_mem (labels.map some) 0 (labels.length - 1) _
            hget
        have hge := foldl_stackInsert_length_ge _ [] _ hmem
        have hdiv : (0 + 4 * (labels.length - 1) + 1) / 4 =
            labels.length - 1 := by omega
        rw [hdiv] at hge
        omega
  apply List.ext_getElem
  · rw [hlen]
    simp
  · intro n h1 h2
    have hn : n < labels.length := by rw [hlen] at h1; exact h1
    rw [List.getElem_map, List.getElem_range,
      ← List.getD_eq_getElem _ [] h1]
    exact hgetD n hn

/-- C8: `load_stacks` on a well-formed rendered diagram (crate rows of
`[X]` cells at offsets 1, 5, 9, …, then a label row) returns exactly the
columns read top-to-bottom then reversed — bottom-to-top stacks — with
no label character surviving. -/
theorem load_stacks_renders (rows : List (List (Option Char)))
    (labels : List Char)
    (hrow : ∀ r ∈ rows, r.length ≤ labels.length)
    (hcell : ∀ r ∈ rows, ∀ ch : Char, some ch ∈ r → crateChar ch = true)
    (hlab : ∀ ch ∈ labels, crateChar ch = true) :
    load_stacks (rows.map renderRow ++ [renderLabels labels]) =
      some ((List.range labels.length).map fun j =>
        (rows.filterMap fun r => r.getD j none).reverse) := by
  show removeLabels (loadStacksFold _) = _
  rw [loadStacksFold_renders rows labels hrow hcell hlab]
  rw [removeLabels_eq _ (fun s hs => by
    obtain ⟨j, hj, heq⟩ := List.mem_map.mp hs
    rw [← heq]
    exact List.cons_ne_nil _ _)]
  rw [List.map_map]
  congr 1

/-- Witness for `load_stacks_renders` on the canonical example diagram:
the rendered diagram parses to the example's initial stacks. -/
theorem load_stacks_renders_witness :
    (∀ r ∈ ([[none, some 'D'], [some 'N', some 'C'],
        [some 'Z', some 'M', some 'P']] : List (List (Option Char))),
      r.length ≤ (['1', '2', '3'] : List Char).length) ∧
    load_stacks (([[none, some 'D'], [some 'N', some 'C'],
        [some 'Z', some 'M', some 'P']] : List (List (Option Char))).map
          renderRow ++ [renderLabels ['1', '2', '3']]) =
      some ((List.range (['1', '2', '3'] : List Char).length).map fun j =>
        (([[none, some 'D'], [some 'N', some 'C'],
          [some 'Z', some 'M', some 'P']] :
            List (List (Option Char))).filterMap
              fun r => r.getD j none).reverse) :=
  ⟨by decide,
   load_stacks_renders _ _ (by decide)
    (by
      intro r hr ch hch
      simp only [List.mem_cons, List.not_mem_nil, or_false] at hr
      rcases hr with rfl | rfl | rfl <;> simp at hch
      · subst hch; decide
      · rcases hch with rfl | rfl <;> decide
      · rcases hch with rfl | rfl | rfl <;> decide)
    (by decide)⟩

end Day05
